import Mathlib

/-!
Verification of the commit-range resolution core of `copilot-sprint-summary`
(`src/gitRange.ts`): identifier normalization, bounded breadth-first ancestor
collection, and selection-based commit filtering.

The embedding mirrors the TypeScript source:
* JavaScript's `String.prototype.trim` is modelled by `wsTrim` (drop Unicode
  whitespace from both ends, here `Char.isWhitespace`).
* `undefined`-able values are `Option`s; JS falsiness of strings (only `""`
  is falsy) is modelled by explicit `= ""` tests.
* A thrown/rejected `getCommit` is `Except.error`.
* The insertion-ordered JS `Set` of visited hashes is a duplicate-free
  `List String` grown at the end.
-/

namespace GitRange

/-- Model of JS `String.prototype.trim` on the character list. -/
def trimChars (l : List Char) : List Char :=
  ((l.dropWhile Char.isWhitespace).reverse.dropWhile Char.isWhitespace).reverse

/-- Model of JS `String.prototype.trim`. -/
def wsTrim (s : String) : String :=
  ⟨trimChars s.data⟩

/-- A parent entry of a commit as the source accepts it: JS `null`/`undefined`
(or any falsy non-string), a bare identifier string, or an object whose
`hash`, `sha` and `commit` fields are each either a string or absent. -/
inductive Parent where
  | null : Parent
  | str (s : String) : Parent
  | obj (hash sha commit : Option String) : Parent
deriving DecidableEq, Repr

/-- A commit record with the fields the source reads.  Timestamps are the
already-parsed epoch instants; `none` models an absent/falsy date field. -/
structure Commit where
  hash : Option String
  parents : Option (List Parent)
  authorDate : Option Int
  commitDate : Option Int
  authorName : Option String
  message : Option String
deriving DecidableEq, Repr

/-- The repository-query capability: a bounded log fetch and a by-identifier
commit fetch that may fail (`Except.error` models a thrown rejection). -/
structure Repo where
  log : Nat → List Commit
  getCommit : String → Except Unit Commit

/-- `MAX_LOG_ENTRIES`: the shared bound of every log fetch and ancestor cap. -/
def MAX_LOG_ENTRIES : Nat := 200

/-- `getCommitDate`: `new Date(commit.authorDate || commit.commitDate || 0)`. -/
def getCommitDate (c : Commit) : Int :=
  match c.authorDate with
  | some d => d
  | none =>
    match c.commitDate with
    | some d => d
    | none => 0

/-- `normalizeHash`: `undefined` and `""` are falsy; otherwise trim, and an
empty trimmed result is again falsy (collapsed to `undefined`). -/
def normalizeHash (hash : Option String) : Option String :=
  match hash with
  | none => none
  | some s =>
    if s = "" then none
    else
      let trimmed := wsTrim s
      if trimmed = "" then none else some trimmed

/-- `normalizeCommit`: shallow copy with the trimmed hash, only when the
hash normalizes and the trim actually changed it. -/
def normalizeCommit (c : Commit) : Commit :=
  match normalizeHash c.hash with
  | some nh => if c.hash ≠ some nh then { c with hash := some nh } else c
  | none => c

/-- `normalizeParentHash`: a falsy parent (including the empty bare string)
yields nothing; a bare string yields itself; an object yields the first
string among its `hash`, `sha`, `commit` fields, in that order. -/
def normalizeParentHash : Parent → Option String
  | .null => none
  | .str s => if s = "" then none else some s
  | .obj h sh c =>
    match h with
    | some s => some s
    | none =>
      match sh with
      | some s => some s
      | none =>
        match c with
        | some s => some s
        | none => none

/-- The body of the `for (const parent of parents)` loop: push the parent's
normalized identifier unless it is absent or already visited. -/
def enqueueStep (visited : List String) (q : List String) (p : Parent) : List String :=
  match normalizeHash (normalizeParentHash p) with
  | some ph => if ph ∈ visited then q else q ++ [ph]
  | none => q

/-- The `while` loop of `collectAncestorHashes`.  Each iteration pops the
queue front; a falsy or already-visited hash is skipped; otherwise the hash
is recorded and, when its fetch succeeds, its parents are enqueued against
the updated visited set. -/
def collectLoop (repo : Repo) (maxCommits : Nat) (visited : List String)
    (queue : List String) : List String :=
  match queue with
  | [] => visited
  | hash :: rest =>
    if _hlt : visited.length < maxCommits then
      if hash = "" ∨ hash ∈ visited then
        collectLoop repo maxCommits visited rest
      else
        let visited' := visited ++ [hash]
        match repo.getCommit hash with
        | .error _ => collectLoop repo maxCommits visited' rest
        | .ok c =>
          collectLoop repo maxCommits visited'
            ((c.parents.getD []).foldl (enqueueStep visited') rest)
    else visited
termination_by (maxCommits - visited.length, queue.length)
decreasing_by
  · exact Prod.Lex.right _ (Nat.lt_succ_self _)
  · refine Prod.Lex.left _ _ ?_
    simp only [List.length_append, List.length_cons, List.length_nil]
    omega
  · refine Prod.Lex.left _ _ ?_
    simp only [List.length_append, List.length_cons, List.length_nil]
    omega

/-- `collectAncestorHashes`: seed the FIFO queue with the normalized start
hash (empty seed when it normalizes away) and run the bounded traversal. -/
def collectAncestorHashes (repo : Repo) (startHash : String) (maxCommits : Nat) :
    List String :=
  let normalizedStart := normalizeHash (some startHash)
  let queue : List String :=
    match normalizedStart with
    | some s => [s]
    | none => []
  collectLoop repo maxCommits [] queue

/-- The `RangeSelection` tagged union. -/
inductive RangeSelection where
  | days (sinceDate : Int) (days : Nat) : RangeSelection
  | tag (sinceDate : Int) (tag : String) (commitHash : String) : RangeSelection
  | commit (sinceDate : Int) (commitHash : String) : RangeSelection
deriving DecidableEq, Repr

/-- The shared tail of `getCommitsForSelection` for tag/commit selections. -/
def targetSelectionCommits (repo : Repo) (commitHash : String) : List Commit :=
  let headCommits := repo.log MAX_LOG_ENTRIES
  if headCommits.length = 0 then []
  else
    let targetHashes := collectAncestorHashes repo commitHash MAX_LOG_ENTRIES
    let headHashes := headCommits.filterMap (fun c => normalizeHash c.hash)
    let hasCommonAncestor := headHashes.any (fun h => targetHashes.contains h)
    if !hasCommonAncestor then []
    else
      (headCommits.filter (fun c =>
        match normalizeHash c.hash with
        | some h => !targetHashes.contains h
        | none => false)).map normalizeCommit

/-- `getCommitsForSelection`: date filtering for `days`, divergence
filtering against the collected ancestor set for `tag`/`commit`. -/
def getCommitsForSelection (repo : Repo) (selection : RangeSelection) : List Commit :=
  match selection with
  | .days sinceDate _ =>
    let allCommits := repo.log MAX_LOG_ENTRIES
    (allCommits.filter (fun c => decide (sinceDate ≤ getCommitDate c))).map normalizeCommit
  | .tag _ _ commitHash => targetSelectionCommits repo commitHash
  | .commit _ commitHash => targetSelectionCommits repo commitHash

/-! ### Instrumented traversal: the same loop, also returning the list of
identifiers pushed onto the queue by the parent loop, in push order. -/

/-- `enqueueStep` threading a push log alongside the queue. -/
def enqueueStepT (visited : List String) (ql : List String × List String)
    (p : Parent) : List String × List String :=
  match normalizeHash (normalizeParentHash p) with
  | some ph => if ph ∈ visited then ql else (ql.1 ++ [ph], ql.2 ++ [ph])
  | none => ql

/-- `collectLoop` with a push log (second component). -/
def collectLoopTrace (repo : Repo) (maxCommits : Nat) (visited : List String)
    (queue : List String) (pushLog : List String) : List String × List String :=
  match queue with
  | [] => (visited, pushLog)
  | hash :: rest =>
    if _hlt : visited.length < maxCommits then
      if hash = "" ∨ hash ∈ visited then
        collectLoopTrace repo maxCommits visited rest pushLog
      else
        let visited' := visited ++ [hash]
        match repo.getCommit hash with
        | .error _ => collectLoopTrace repo maxCommits visited' rest pushLog
        | .ok c =>
          let ql := (c.parents.getD []).foldl (enqueueStepT visited') (rest, pushLog)
          collectLoopTrace repo maxCommits visited' ql.1 ql.2
    else (visited, pushLog)
termination_by (maxCommits - visited.length, queue.length)
decreasing_by
  · exact Prod.Lex.right _ (Nat.lt_succ_self _)
  · refine Prod.Lex.left _ _ ?_
    simp only [List.length_append, List.length_cons, List.length_nil]
    omega
  · refine Prod.Lex.left _ _ ?_
    simp only [List.length_append, List.length_cons, List.length_nil]
    omega

/-- All identifiers pushed onto the queue during `collectAncestorHashes`. -/
def collectAncestorPushLog (repo : Repo) (startHash : String) (maxCommits : Nat) :
    List String :=
  let queue : List String :=
    match normalizeHash (some startHash) with
    | some s => [s]
    | none => []
  (collectLoopTrace repo maxCommits [] queue []).2

/-! ### Synthetic repositories used as concrete inputs -/

/-- A commit whose only populated fields are the hash and the parents. -/
def mkCommit (h : Option String) (ps : List Parent) : Commit :=
  ⟨h, some ps, none, none, none, none⟩

/-- A synthetic linear chain of `n` commits: node `f i` (for `i < n`) has the
single parent `f (i+1)` when `i + 1 < n` and no parents otherwise; `g` is the
index of a hash in the chain.  The log is empty (only `getCommit` matters). -/
def chainRepo (g : String → Option Nat) (f : Nat → String) (n : Nat) : Repo where
  log _ := []
  getCommit h :=
    match g h with
    | some i =>
      if i < n then
        .ok (mkCommit (some h) (if i + 1 < n then [.str (f (i + 1))] else []))
      else .error ()
    | none => .error ()

/-- Concrete chain of 8 nodes "a" … "h" for witnesses. -/
def chainNames : List String := ["a", "b", "c", "d", "e", "f", "g", "h"]

def chainF : Nat → String := fun i => chainNames.getD i ""

def chainG : String → Option Nat :=
  fun s => (List.range chainNames.length).find? (fun i => chainNames.getD i "" = s)

/-- The repository's own end-to-end scenario: one shared initial commit
`c0`, a feature branch head with 4 extra commits `f1`…`f4` (the current
head log), and `main` advanced by one tagged commit `m1`. -/
def scenarioRepo : Repo where
  log _ := [mkCommit (some "f4") [.str "f3"], mkCommit (some "f3") [.str "f2"],
            mkCommit (some "f2") [.str "f1"], mkCommit (some "f1") [.str "c0"],
            mkCommit (some "c0") []]
  getCommit h :=
    if h = "c0" then .ok (mkCommit (some "c0") [])
    else if h = "m1" then .ok (mkCommit (some "m1") [.str "c0"])
    else if h = "f1" then .ok (mkCommit (some "f1") [.str "c0"])
    else if h = "f2" then .ok (mkCommit (some "f2") [.str "f1"])
    else if h = "f3" then .ok (mkCommit (some "f3") [.str "f2"])
    else if h = "f4" then .ok (mkCommit (some "f4") [.str "f3"])
    else .error ()

/-- A diamond: `s` has parents `a` and `b`, which share the parent `p`. -/
def diamondRepo : Repo where
  log _ := []
  getCommit h :=
    if h = "s" then .ok (mkCommit (some "s") [.str "a", .str "b"])
    else if h = "a" then .ok (mkCommit (some "a") [.str "p"])
    else if h = "b" then .ok (mkCommit (some "b") [.str "p"])
    else if h = "p" then .ok (mkCommit (some "p") [])
    else .error ()

/-- Like `diamondRepo`, but fetching `a` fails; `p` stays reachable via `b`. -/
def gapRepo : Repo where
  log _ := []
  getCommit h :=
    if h = "s" then .ok (mkCommit (some "s") [.str "a", .str "b"])
    else if h = "b" then .ok (mkCommit (some "b") [.str "p"])
    else if h = "p" then .ok (mkCommit (some "p") [])
    else .error ()

/-- Two disjoint histories: the head log is `x1 → x0`, while the target
`y0` has no relation to it. -/
def disjointRepo : Repo where
  log _ := [mkCommit (some "x1") [.str "x0"], mkCommit (some "x0") []]
  getCommit h :=
    if h = "y0" then .ok (mkCommit (some "y0") [])
    else if h = "x0" then .ok (mkCommit (some "x0") [])
    else if h = "x1" then .ok (mkCommit (some "x1") [.str "x0"])
    else .error ()

/-- An empty repository. -/
def emptyRepo : Repo where
  log _ := []
  getCommit _ := .error ()

/-- A log with known author dates 5, 10 and 15 for the days-filter witness. -/
def daysCommit (h : String) (d : Int) : Commit :=
  ⟨some h, some [], some d, none, none, none⟩

def daysRepo : Repo where
  log _ := [daysCommit "t15" 15, daysCommit "t10" 10, daysCommit "t5" 5]
  getCommit _ := .error ()

/-- Same log as `daysRepo` but a completely different `getCommit`. -/
def daysRepoAlt : Repo where
  log _ := [daysCommit "t15" 15, daysCommit "t10" 10, daysCommit "t5" 5]
  getCommit h := .ok (mkCommit (some h) [])

/-- A head log containing commits with absent, empty and whitespace-only
hashes next to normal ones, over the scenario graph. -/
def messyRepo : Repo where
  log _ := [mkCommit (some " f2 ") [.str "f1"], mkCommit none [],
            mkCommit (some "   ") [], mkCommit (some "") [],
            mkCommit (some "f1") [.str "c0"], mkCommit (some "c0") []]
  getCommit h :=
    if h = "c0" then .ok (mkCommit (some "c0") [])
    else if h = "m1" then .ok (mkCommit (some "m1") [.str "c0"])
    else .error ()

/-- `messyRepo` with the unusable-hash commits dropped from the log. -/
def messyFilteredRepo : Repo where
  log n := (messyRepo.log n).filter (fun c => (normalizeHash c.hash).isSome)
  getCommit := messyRepo.getCommit

/-! ### Lemmas about the trim model -/

theorem dropWhile_length_le (p : α → Bool) (l : List α) :
    (l.dropWhile p).length ≤ l.length := by
  induction l with
  | nil => simp
  | cons a l ih =>
    by_cases h : p a
    · rw [List.dropWhile_cons_of_pos h]
      exact Nat.le_trans ih (Nat.le_succ _)
    · rw [List.dropWhile_cons_of_neg (by simp [h])]

theorem dropWhile_idem (p : α → Bool) (l : List α) :
    (l.dropWhile p).dropWhile p = l.dropWhile p := by
  induction l with
  | nil => simp
  | cons a l ih =>
    by_cases h : p a
    · rw [List.dropWhile_cons_of_pos h]; exact ih
    · rw [List.dropWhile_cons_of_neg (by simp [h]),
        List.dropWhile_cons_of_neg (by simp [h])]

theorem dropWhile_fix_of_append (p : α → Bool) (l t : List α)
    (h : (l ++ t).dropWhile p = l ++ t) : l.dropWhile p = l := by
  cases l with
  | nil => rfl
  | cons a l =>
    by_cases hpa : p a
    · exfalso
      rw [List.cons_append, List.dropWhile_cons_of_pos hpa] at h
      have hle := dropWhile_length_le p (l ++ t)
      rw [h] at hle
      simp at hle
    · rw [List.dropWhile_cons_of_neg (by simp [hpa])]

theorem rev_suffix_to_pre {l₁ l₂ : List α} (h : l₁ <:+ l₂) :
    l₁.reverse <+: l₂.reverse := by
  obtain ⟨t, rfl⟩ := h
  exact ⟨t.reverse, by rw [← List.reverse_append]⟩

theorem trimChars_pre (l : List Char) : trimChars l <+: l.dropWhile Char.isWhitespace := by
  have h := rev_suffix_to_pre
    (List.dropWhile_suffix (l := (l.dropWhile Char.isWhitespace).reverse)
      Char.isWhitespace)
  rwa [List.reverse_reverse] at h

theorem dropWhile_fix_of_pre (p : α → Bool) {l₁ l₂ : List α} (h : l₁ <+: l₂)
    (h₂ : l₂.dropWhile p = l₂) : l₁.dropWhile p = l₁ := by
  obtain ⟨t, rfl⟩ := h
  exact dropWhile_fix_of_append p l₁ t h₂

theorem dropWhile_trimChars (l : List Char) :
    (trimChars l).dropWhile Char.isWhitespace = trimChars l :=
  dropWhile_fix_of_pre _ (trimChars_pre l) (dropWhile_idem _ l)

theorem trimChars_idem (l : List Char) : trimChars (trimChars l) = trimChars l := by
  rw [trimChars, dropWhile_trimChars, trimChars, List.reverse_reverse, dropWhile_idem]

theorem wsTrim_idem (s : String) : wsTrim (wsTrim s) = wsTrim s := by
  apply String.ext
  show trimChars (trimChars s.data) = trimChars s.data
  exact trimChars_idem s.data

theorem wsTrim_data (s : String) : (wsTrim s).data = trimChars s.data := rfl

/-! ### Lemmas about identifier normalization -/

/-- An identifier is normal when it is non-empty and fixed by trimming:
exactly the shape `normalizeHash` can return. -/
def isNormal (t : String) : Prop := wsTrim t = t ∧ t ≠ ""

instance (t : String) : Decidable (isNormal t) := by
  unfold isNormal; infer_instance

theorem normalizeHash_isNormal {h : Option String} {t : String}
    (he : normalizeHash h = some t) : isNormal t := by
  match h with
  | none => simp [normalizeHash] at he
  | some s =>
    rw [normalizeHash] at he
    by_cases hs : s = ""
    · simp [hs] at he
    · simp only [hs, if_false] at he
      by_cases ht : wsTrim s = ""
      · simp [ht] at he
      · simp only [ht, if_false, Option.some.injEq] at he
        subst he
        exact ⟨wsTrim_idem s, ht⟩

theorem normalizeHash_fix {t : String} (ht : isNormal t) :
    normalizeHash (some t) = some t := by
  obtain ⟨htrim, hne⟩ := ht
  rw [normalizeHash]
  simp only [hne, if_false, htrim, if_neg hne]

theorem normalizeHash_idem (h : Option String) :
    normalizeHash (normalizeHash h) = normalizeHash h := by
  match he : normalizeHash h with
  | none => rfl
  | some t => exact normalizeHash_fix (normalizeHash_isNormal he)

/-! ### Invariants of the traversal loop -/

theorem mem_foldl_enqueueStep {vis q : List String} {ps : List Parent} {x : String}
    (hx : x ∈ ps.foldl (enqueueStep vis) q) :
    x ∈ q ∨ ∃ p ∈ ps, normalizeHash (normalizeParentHash p) = some x := by
  induction ps generalizing q with
  | nil => exact .inl hx
  | cons p ps ih =>
    rcases ih (q := enqueueStep vis q p) hx with h | ⟨p', hp', he⟩
    · match hnp : normalizeHash (normalizeParentHash p) with
      | none => simp only [enqueueStep, hnp] at h; exact .inl h
      | some ph =>
        simp only [enqueueStep, hnp] at h
        by_cases hmem : ph ∈ vis
        · rw [if_pos hmem] at h; exact .inl h
        · rw [if_neg hmem] at h
          rcases List.mem_append.mp h with h | h
          · exact .inl h
          · simp only [List.mem_singleton] at h
            subst h
            exact .inr ⟨p, List.mem_cons_self p ps, hnp⟩
    · exact .inr ⟨p', List.mem_cons_of_mem p hp', he⟩

theorem collectLoop_length_le (repo : Repo) (m : Nat) (v q : List String) :
    v.length ≤ m → (collectLoop repo m v q).length ≤ m := by
  induction v, q using collectLoop.induct repo m with
  | case1 visited =>
    intro h; rw [collectLoop]; exact h
  | case2 visited hash rest hlt hskip ih =>
    intro h
    rw [collectLoop]
    simp only [dif_pos hlt, if_pos hskip]
    exact ih h
  | case3 visited hash rest hlt hskip visited' a herr ih =>
    intro _
    rw [collectLoop]
    simp only [dif_pos hlt, if_neg hskip, herr]
    refine ih ?_
    show (visited ++ [hash]).length ≤ m
    simp only [List.length_append, List.length_cons, List.length_nil]
    omega
  | case4 visited hash rest hlt hskip visited' c hok ih =>
    intro _
    rw [collectLoop]
    simp only [dif_pos hlt, if_neg hskip, hok]
    refine ih ?_
    show (visited ++ [hash]).length ≤ m
    simp only [List.length_append, List.length_cons, List.length_nil]
    omega
  | case5 visited hash rest hge =>
    intro h
    rw [collectLoop]
    simp only [dif_neg hge]
    exact h

theorem collectLoop_nodup (repo : Repo) (m : Nat) (v q : List String) :
    v.Nodup → (collectLoop repo m v q).Nodup := by
  induction v, q using collectLoop.induct repo m with
  | case1 visited =>
    intro h; rw [collectLoop]; exact h
  | case2 visited hash rest hlt hskip ih =>
    intro h
    rw [collectLoop]
    simp only [dif_pos hlt, if_pos hskip]
    exact ih h
  | case3 visited hash rest hlt hskip visited' a herr ih =>
    intro h
    rw [collectLoop]
    simp only [dif_pos hlt, if_neg hskip, herr]
    refine ih ?_
    show (visited ++ [hash]).Nodup
    push_neg at hskip
    refine List.Nodup.append h (List.nodup_singleton _) ?_
    intro a ha hb
    simp only [List.mem_singleton] at hb
    exact hskip.2 (hb ▸ ha)
  | case4 visited hash rest hlt hskip visited' c hok ih =>
    intro h
    rw [collectLoop]
    simp only [dif_pos hlt, if_neg hskip, hok]
    refine ih ?_
    show (visited ++ [hash]).Nodup
    push_neg at hskip
    refine List.Nodup.append h (List.nodup_singleton _) ?_
    intro a ha hb
    simp only [List.mem_singleton] at hb
    exact hskip.2 (hb ▸ ha)
  | case5 visited hash rest hge =>
    intro h
    rw [collectLoop]
    simp only [dif_neg hge]
    exact h

theorem collectLoop_isNormal (repo : Repo) (m : Nat) (v q : List String) :
    (∀ x ∈ v, isNormal x) → (∀ x ∈ q, isNormal x) →
    ∀ x ∈ collectLoop repo m v q, isNormal x := by
  induction v, q using collectLoop.induct repo m with
  | case1 visited =>
    intro hv _; rw [collectLoop]; exact hv
  | case2 visited hash rest hlt hskip ih =>
    intro hv hq
    rw [collectLoop]; simp only [dif_pos hlt, if_pos hskip]
    exact ih hv (fun x hx => hq x (List.mem_cons_of_mem _ hx))
  | case3 visited hash rest hlt hskip visited' a herr ih =>
    intro hv hq
    rw [collectLoop]; simp only [dif_pos hlt, if_neg hskip, herr]
    refine ih ?_ (fun x hx => hq x (List.mem_cons_of_mem _ hx))
    intro x hx
    rcases List.mem_append.mp hx with h | h
    · exact hv x h
    · simp only [List.mem_singleton] at h
      subst h
      exact hq _ (List.mem_cons_self _ _)
  | case4 visited hash rest hlt hskip visited' c hok ih =>
    intro hv hq
    rw [collectLoop]; simp only [dif_pos hlt, if_neg hskip, hok]
    refine ih ?_ ?_
    · intro x hx
      rcases List.mem_append.mp hx with h | h
      · exact hv x h
      · simp only [List.mem_singleton] at h
        subst h
        exact hq _ (List.mem_cons_self _ _)
    · intro x hx
      rcases mem_foldl_enqueueStep hx with h | ⟨p, _, he⟩
      · exact hq x (List.mem_cons_of_mem _ h)
      · exact normalizeHash_isNormal he
  | case5 visited hash rest hge =>
    intro hv _
    rw [collectLoop]; simp only [dif_neg hge]
    exact hv

theorem collectAncestorHashes_isNormal (repo : Repo) (s : String) (m : Nat) :
    ∀ x ∈ collectAncestorHashes repo s m, isNormal x := by
  rw [collectAncestorHashes]
  match hs : normalizeHash (some s) with
  | none => intro x hx; rw [collectLoop] at hx; simp at hx
  | some t =>
    refine collectLoop_isNormal repo m [] [t] (by simp) ?_
    intro x hx
    simp only [List.mem_singleton] at hx
    subst hx
    exact normalizeHash_isNormal hs

theorem collectLoop_mem_mono (repo : Repo) (m : Nat) (v q : List String)
    {x : String} : x ∈ v → x ∈ collectLoop repo m v q := by
  induction v, q using collectLoop.induct repo m with
  | case1 visited =>
    intro h; rw [collectLoop]; exact h
  | case2 visited hash rest hlt hskip ih =>
    intro h
    rw [collectLoop]; simp only [dif_pos hlt, if_pos hskip]
    exact ih h
  | case3 visited hash rest hlt hskip visited' a herr ih =>
    intro h
    rw [collectLoop]; simp only [dif_pos hlt, if_neg hskip, herr]
    exact ih (List.mem_append.mpr (.inl h))
  | case4 visited hash rest hlt hskip visited' c hok ih =>
    intro h
    rw [collectLoop]; simp only [dif_pos hlt, if_neg hskip, hok]
    exact ih (List.mem_append.mpr (.inl h))
  | case5 visited hash rest hge =>
    intro h
    rw [collectLoop]; simp only [dif_neg hge]
    exact h

/-- The failing-fetch step: the popped fresh hash is recorded as visited
and contributes nothing to the queue; the loop then continues. -/
theorem collectLoop_error_step (repo : Repo) (m : Nat) (v : List String)
    (hash : String) (rest : List String) (hlt : v.length < m)
    (hns : ¬(hash = "" ∨ hash ∈ v)) (herr : repo.getCommit hash = .error ()) :
    collectLoop repo m v (hash :: rest) = collectLoop repo m (v ++ [hash]) rest := by
  rw [collectLoop]
  simp only [dif_pos hlt, if_neg hns, herr]

theorem foldl_enqueueStepT_fst (vis : List String) (ps : List Parent)
    (q pl : List String) :
    (ps.foldl (enqueueStepT vis) (q, pl)).1 = ps.foldl (enqueueStep vis) q := by
  induction ps generalizing q pl with
  | nil => rfl
  | cons p ps ih =>
    simp only [List.foldl_cons]
    match hnp : normalizeHash (normalizeParentHash p) with
    | none =>
      simp only [enqueueStepT, enqueueStep, hnp]
      exact ih q pl
    | some ph =>
      simp only [enqueueStepT, enqueueStep, hnp]
      by_cases hm : ph ∈ vis
      · simp only [if_pos hm]
        exact ih q pl
      · simp only [if_neg hm]
        exact ih (q ++ [ph]) (pl ++ [ph])

theorem collectLoopTrace_fst (repo : Repo) (m : Nat) (v q pl : List String) :
    (collectLoopTrace repo m v q pl).1 = collectLoop repo m v q := by
  induction v, q, pl using collectLoopTrace.induct repo m with
  | case1 visited pushLog =>
    rw [collectLoopTrace, collectLoop]
  | case2 visited hash rest pushLog hlt hskip ih =>
    rw [collectLoopTrace, collectLoop]
    simp only [dif_pos hlt, if_pos hskip]
    exact ih
  | case3 visited hash rest pushLog hlt hskip visited' a herr ih =>
    rw [collectLoopTrace, collectLoop]
    simp only [dif_pos hlt, if_neg hskip, herr]
    exact ih
  | case4 visited hash rest pushLog hlt hskip visited' c hok ql ih =>
    rw [collectLoopTrace, collectLoop]
    simp only [dif_pos hlt, if_neg hskip, hok]
    rw [ih, foldl_enqueueStepT_fst]
  | case5 visited hash rest pushLog hge =>
    rw [collectLoopTrace, collectLoop]
    simp only [dif_neg hge]

/-- The traced and plain traversals compute the same visited set. -/
theorem collectAncestorPushLog_agrees (repo : Repo) (s : String) (m : Nat) :
    (collectLoopTrace repo m []
      (match normalizeHash (some s) with | some t => [t] | none => []) []).1
      = collectAncestorHashes repo s m := by
  rw [collectAncestorHashes, collectLoopTrace_fst]

/-! ### The synthetic linear chain -/

theorem chainRepo_loop (g : String → Option Nat) (f : Nat → String) (n m : Nat)
    (hg : ∀ i, i < n → g (f i) = some i)
    (hfix : ∀ i, i < n → normalizeHash (some (f i)) = some (f i))
    (hmn : m < n) :
    ∀ k j, j + k = m →
      collectLoop (chainRepo g f n) m ((List.range j).map f) [f j]
        = (List.range m).map f := by
  intro k
  induction k with
  | zero =>
    intro j hj
    rw [Nat.add_zero] at hj
    subst hj
    rw [collectLoop]
    simp only [List.length_map, List.length_range]
    rw [dif_neg (lt_irrefl j)]
  | succ k ih =>
    intro j hj
    have hjm : j < m := by omega
    have hjn : j < n := by omega
    have hj1n : j + 1 < n := by omega
    have hne : f j ≠ "" := (normalizeHash_isNormal (hfix j hjn)).2
    have hinj : ∀ a b, a < n → b < n → f a = f b → a = b := by
      intro a b ha hb hab
      have h1 := hg a ha
      have h2 := hg b hb
      rw [hab, h2] at h1
      exact Option.some.inj h1.symm
    have hnotmem : f j ∉ (List.range j).map f := by
      intro hmem
      rcases List.mem_map.mp hmem with ⟨i, hi, hfi⟩
      rw [List.mem_range] at hi
      have := hinj i j (by omega) hjn hfi
      omega
    rw [collectLoop]
    have hlen : ((List.range j).map f).length < m := by
      simp only [List.length_map, List.length_range]; omega
    simp only [dif_pos hlen]
    rw [if_neg (by push_neg; exact ⟨hne, hnotmem⟩)]
    have hget : (chainRepo g f n).getCommit (f j)
        = .ok (mkCommit (some (f j)) [.str (f (j + 1))]) := by
      simp only [chainRepo, hg j hjn, if_pos hjn, if_pos hj1n]
    simp only [hget]
    have hvis : (List.range j).map f ++ [f j] = (List.range (j + 1)).map f := by
      rw [List.range_succ, List.map_append, List.map_singleton]
    have hq : (((mkCommit (some (f j)) [.str (f (j + 1))]).parents.getD []).foldl
        (enqueueStep ((List.range j).map f ++ [f j])) []) = [f (j + 1)] := by
      have hne1 : f (j + 1) ≠ "" := (normalizeHash_isNormal (hfix (j + 1) hj1n)).2
      simp only [mkCommit, Option.getD_some, List.foldl_cons, List.foldl_nil]
      simp only [enqueueStep, normalizeParentHash, if_neg hne1, hfix (j + 1) hj1n]
      rw [if_neg, List.nil_append]
      rw [hvis]
      intro hmem
      rcases List.mem_map.mp hmem with ⟨i, hi, hfi⟩
      rw [List.mem_range] at hi
      have := hinj i (j + 1) (by omega) hj1n hfi
      omega
    rw [hq, hvis]
    exact ih (j + 1) (by omega)

theorem chainRepo_collect (g : String → Option Nat) (f : Nat → String) (n m : Nat)
    (hg : ∀ i, i < n → g (f i) = some i)
    (hfix : ∀ i, i < n → normalizeHash (some (f i)) = some (f i))
    (hmn : m < n) :
    collectAncestorHashes (chainRepo g f n) (f 0) m = (List.range m).map f := by
  rw [collectAncestorHashes]
  rw [hfix 0 (by omega)]
  have h := chainRepo_loop g f n m hg hfix hmn m 0 (by omega)
  simpa using h

/-! ### Lemmas about the range resolver -/

theorem targetSelectionCommits_empty_log (repo : Repo) (hsh : String)
    (hlog : repo.log MAX_LOG_ENTRIES = []) :
    targetSelectionCommits repo hsh = [] := by
  simp only [targetSelectionCommits, hlog]
  rfl

theorem targetSelectionCommits_no_common (repo : Repo) (hsh : String)
    (hnc : ∀ c ∈ repo.log MAX_LOG_ENTRIES, ∀ nh, normalizeHash c.hash = some nh →
      nh ∉ collectAncestorHashes repo hsh MAX_LOG_ENTRIES) :
    targetSelectionCommits repo hsh = [] := by
  simp only [targetSelectionCommits]
  by_cases hlog : (repo.log MAX_LOG_ENTRIES).length = 0
  · rw [if_pos hlog]
  · rw [if_neg hlog]
    have hany : ((repo.log MAX_LOG_ENTRIES).filterMap
        (fun c => normalizeHash c.hash)).any
          (fun h => (collectAncestorHashes repo hsh MAX_LOG_ENTRIES).contains h)
        = false := by
      rw [List.any_eq_false]
      intro x hx
      rcases List.mem_filterMap.mp hx with ⟨c, hc, hnh⟩
      simp only [List.elem_iff]
      exact hnc c hc x hnh
    rw [hany]
    rfl

theorem targetSelectionCommits_common (repo : Repo) (hsh : String)
    (hne : repo.log MAX_LOG_ENTRIES ≠ [])
    (hsome : ∃ c ∈ repo.log MAX_LOG_ENTRIES, ∃ nh, normalizeHash c.hash = some nh ∧
      nh ∈ collectAncestorHashes repo hsh MAX_LOG_ENTRIES) :
    targetSelectionCommits repo hsh =
      ((repo.log MAX_LOG_ENTRIES).filter (fun c =>
        match normalizeHash c.hash with
        | some nh => decide (nh ∉ collectAncestorHashes repo hsh MAX_LOG_ENTRIES)
        | none => false)).map normalizeCommit := by
  simp only [targetSelectionCommits]
  rw [if_neg (fun h => hne (List.length_eq_zero.mp h))]
  have hany : ((repo.log MAX_LOG_ENTRIES).filterMap
      (fun c => normalizeHash c.hash)).any
        (fun h => (collectAncestorHashes repo hsh MAX_LOG_ENTRIES).contains h)
      = true := by
    rw [List.any_eq_true]
    rcases hsome with ⟨c, hc, nh, heq, hmem⟩
    refine ⟨nh, List.mem_filterMap.mpr ⟨c, hc, heq⟩, ?_⟩
    simpa [List.elem_iff] using hmem
  rw [hany]
  simp only [Bool.not_true, Bool.false_eq_true, if_false]
  congr 1
  apply List.filter_congr
  intro c _
  match normalizeHash c.hash with
  | some nh => simp [List.elem_iff, decide_not]
  | none => rfl

theorem getCommitDate_normalizeCommit (c : Commit) :
    getCommitDate (normalizeCommit c) = getCommitDate c := by
  cases hn : normalizeHash c.hash with
  | none => simp only [normalizeCommit, hn]
  | some nh =>
    simp only [normalizeCommit, hn]
    by_cases h : c.hash ≠ some nh
    · rw [if_pos h]; rfl
    · rw [if_neg h]

theorem targetSelectionCommits_sublist (repo : Repo) (hsh : String) :
    (targetSelectionCommits repo hsh).Sublist
      ((repo.log MAX_LOG_ENTRIES).map normalizeCommit) := by
  simp only [targetSelectionCommits]
  split
  · exact List.nil_sublist _
  · split
    · exact List.nil_sublist _
    · exact List.Sublist.map _ (List.filter_sublist _)

/-! ### The claims -/

/-- C5: for tag- and commit-based selections the resolver returns the empty
list both when the head log is empty and when no head commit's normalized
hash lies in the collected ancestor set (no detected common ancestor). -/
theorem claim_C5 : ∀ (repo : Repo) (sd : Int) (tg hsh : String),
    (repo.log MAX_LOG_ENTRIES = [] →
      getCommitsForSelection repo (.tag sd tg hsh) = [] ∧
      getCommitsForSelection repo (.commit sd hsh) = []) ∧
    ((∀ c ∈ repo.log MAX_LOG_ENTRIES, ∀ nh, normalizeHash c.hash = some nh →
        nh ∉ collectAncestorHashes repo hsh MAX_LOG_ENTRIES) →
      getCommitsForSelection repo (.tag sd tg hsh) = [] ∧
      getCommitsForSelection repo (.commit sd hsh) = []) := by
  intro repo sd tg hsh
  constructor
  · intro hlog
    exact ⟨targetSelectionCommits_empty_log repo hsh hlog,
           targetSelectionCommits_empty_log repo hsh hlog⟩
  · intro h
    exact ⟨targetSelectionCommits_no_common repo hsh h,
           targetSelectionCommits_no_common repo hsh h⟩

/-- Witness for C5: an empty repository, and the two disjoint histories of
`disjointRepo`, both resolve to the empty list. -/
theorem claim_C5_witness :
    getCommitsForSelection emptyRepo (.tag 0 "t" "m1") = [] ∧
    getCommitsForSelection disjointRepo (.commit 0 "y0") = [] := by
  constructor
  · exact ((claim_C5 emptyRepo 0 "t" "m1").1 rfl).1
  · refine ((claim_C5 disjointRepo 0 "t" "y0").2 ?_).2
    have hT : collectAncestorHashes disjointRepo "y0" MAX_LOG_ENTRIES = ["y0"] := by
      simp [collectAncestorHashes, collectLoop, disjointRepo, mkCommit,
        normalizeHash, wsTrim, trimChars, MAX_LOG_ENTRIES]
    intro c hc nh heq
    rw [hT]
    simp only [disjointRepo, mkCommit, List.mem_cons, List.not_mem_nil,
      or_false] at hc
    rcases hc with rfl | rfl
    · simp [mkCommit, normalizeHash, wsTrim, trimChars] at heq
      subst heq
      decide
    · simp [mkCommit, normalizeHash, wsTrim, trimChars] at heq
      subst heq
      decide

/-- C6: for a days selection the resolver keeps precisely the log commits
whose authoring timestamp is on or after `sinceDate` (inclusive boundary),
and the result depends on nothing but the log (no ancestry computation). -/
theorem claim_C6 : ∀ (repo : Repo) (sd : Int) (d : Nat),
    getCommitsForSelection repo (.days sd d)
      = ((repo.log MAX_LOG_ENTRIES).filter
          (fun c => decide (sd ≤ getCommitDate c))).map normalizeCommit ∧
    (∀ c ∈ repo.log MAX_LOG_ENTRIES, sd ≤ getCommitDate c →
      normalizeCommit c ∈ getCommitsForSelection repo (.days sd d)) ∧
    (∀ x ∈ getCommitsForSelection repo (.days sd d), sd ≤ getCommitDate x) ∧
    (∀ repo' : Repo, repo'.log = repo.log →
      getCommitsForSelection repo' (.days sd d)
        = getCommitsForSelection repo (.days sd d)) := by
  intro repo sd d
  refine ⟨rfl, ?_, ?_, ?_⟩
  · intro c hc hdate
    exact List.mem_map_of_mem normalizeCommit
      (List.mem_filter.mpr ⟨hc, by simpa using hdate⟩)
  · intro x hx
    rcases List.mem_map.mp hx with ⟨c, hcf, rfl⟩
    rw [getCommitDate_normalizeCommit]
    simpa using (List.mem_filter.mp hcf).2
  · intro repo' hlog
    simp only [getCommitsForSelection, hlog]

/-- Witness for C6: with cutoff 10, the commit dated exactly 10 is kept
(inclusive boundary), and replacing `getCommit` wholesale leaves the days
result unchanged. -/
theorem claim_C6_witness :
    normalizeCommit (daysCommit "t10" 10) ∈
      getCommitsForSelection daysRepo (.days 10 3) ∧
    getCommitsForSelection daysRepoAlt (.days 10 3)
      = getCommitsForSelection daysRepo (.days 10 3) := by
  constructor
  · exact (claim_C6 daysRepo 10 3).2.1 (daysCommit "t10" 10) (by decide) (by decide)
  · exact (claim_C6 daysRepo 10 3).2.2.2 daysRepoAlt rfl

/-- C7: for every selection the returned list is a subsequence of the
(identifier-normalized) head log: relative order is the log's order and no
re-sorting occurs. -/
theorem claim_C7 : ∀ (repo : Repo) (sel : RangeSelection),
    (getCommitsForSelection repo sel).Sublist
      ((repo.log MAX_LOG_ENTRIES).map normalizeCommit) := by
  intro repo sel
  cases sel with
  | days sd d => exact List.Sublist.map _ (List.filter_sublist _)
  | tag sd tg hsh => exact targetSelectionCommits_sublist repo hsh
  | commit sd hsh => exact targetSelectionCommits_sublist repo hsh

/-- C8: identifier normalization is idempotent, trims surrounding
whitespace, maps empty/whitespace-only strings to "absent", and an absent
normalized start hash makes `collectAncestorHashes` return the empty set
without any traversal. -/
theorem claim_C8 :
    (∀ s : String, normalizeHash (normalizeHash (some s)) = normalizeHash (some s)) ∧
    normalizeHash (some " abc ") = some "abc" ∧
    normalizeHash (some "") = none ∧
    normalizeHash (some "   ") = none ∧
    (∀ (repo : Repo) (s : String) (m : Nat), normalizeHash (some s) = none →
      collectAncestorHashes repo s m = []) := by
  refine ⟨fun s => normalizeHash_idem (some s), by decide, rfl, by decide, ?_⟩
  intro repo s m h
  rw [collectAncestorHashes, h]
  rw [collectLoop]

/-- Witness for C8: a whitespace-only start hash yields the empty set. -/
theorem claim_C8_witness : collectAncestorHashes emptyRepo "   " 5 = [] :=
  claim_C8.2.2.2.2 emptyRepo "   " 5 (by decide)

/-- C9 counterexample: extraction of a parent given as the *empty* bare
string yields no identifier (the empty string is falsy), refuting the
unconditional bare-string clause of the claim. -/
theorem claim_C9_cex : normalizeParentHash (Parent.str "") = none := by decide

/-- C9 (amended): extraction yields the identifier of a parent given as a
non-empty bare string, or the first string among the `hash`, `sha`,
`commit` fields of a parent object, in that fixed priority order; a parent
with no extractable identifier is silently dropped from the frontier. -/
theorem claim_C9 :
    (∀ s : String, s ≠ "" → normalizeParentHash (.str s) = some s) ∧
    normalizeParentHash .null = none ∧
    (∀ (sh c : Option String) (s : String),
      normalizeParentHash (.obj (some s) sh c) = some s) ∧
    (∀ (c : Option String) (s : String),
      normalizeParentHash (.obj none (some s) c) = some s) ∧
    (∀ s : String, normalizeParentHash (.obj none none (some s)) = some s) ∧
    normalizeParentHash (.obj none none none) = none ∧
    (∀ (vis q : List String) (p : Parent), normalizeParentHash p = none →
      enqueueStep vis q p = q) := by
  refine ⟨?_, rfl, fun sh c s => rfl, fun c s => rfl, fun s => rfl, rfl, ?_⟩
  · intro s hs
    simp only [normalizeParentHash, if_neg hs]
  · intro vis q p h
    simp only [enqueueStep, h, normalizeHash]

/-- Witness for C9: a non-empty bare string is extracted unchanged, and a
keyless parent object is dropped from the frontier. -/
theorem claim_C9_witness :
    normalizeParentHash (Parent.str "abc") = some "abc" ∧
    enqueueStep [] ["x"] (Parent.obj none none none) = ["x"] :=
  ⟨claim_C9.1 "abc" (by decide), claim_C9.2.2.2.2.2.2 [] ["x"] _ rfl⟩

/-- C2 counterexample: in the diamond graph the shared parent `p` is pushed
onto the queue twice (once from `a`, once from `b`), refuting "each parent
identifier is pushed onto the FIFO queue at most once". -/
theorem claim_C2_cex :
    (collectAncestorPushLog diamondRepo "s" MAX_LOG_ENTRIES).count "p" = 2 ∧
    ¬ (collectAncestorPushLog diamondRepo "s" MAX_LOG_ENTRIES).Nodup := by
  have h : collectAncestorPushLog diamondRepo "s" MAX_LOG_ENTRIES
      = ["a", "b", "p", "p"] := by
    simp [collectAncestorPushLog, collectLoopTrace, enqueueStepT, diamondRepo,
      mkCommit, normalizeHash, normalizeParentHash, wsTrim, trimChars,
      MAX_LOG_ENTRIES]
  rw [h]
  exact ⟨by decide, by decide⟩

/-- C2 (amended): each node identifier is added to the visited set at most
once, and a parent identifier already in the visited set at enqueue time is
never pushed; a not-yet-visited identifier may however be pushed more than
once, with dequeue-time dedup preventing a second visit. -/
theorem claim_C2 :
    (∀ (repo : Repo) (s : String) (m : Nat),
      (collectAncestorHashes repo s m).Nodup) ∧
    (∀ (vis q : List String) (p : Parent) (ph : String),
      normalizeHash (normalizeParentHash p) = some ph → ph ∈ vis →
      enqueueStep vis q p = q) := by
  constructor
  · intro repo s m
    exact collectLoop_nodup repo m [] _ List.nodup_nil
  · intro vis q p ph h hmem
    simp only [enqueueStep, h, if_pos hmem]

/-- Witness for C2: a concrete traversal with a duplicate-free visited set,
and an already-visited parent not being pushed. -/
theorem claim_C2_witness :
    (collectAncestorHashes emptyRepo "x" 3).Nodup ∧
    enqueueStep ["p"] [] (Parent.str "p") = [] :=
  ⟨claim_C2.1 emptyRepo "x" 3,
   claim_C2.2 ["p"] [] (Parent.str "p") "p" (by decide) (by decide)⟩

/-- C3: the traversal (a total function in this embedding) never returns
more than `maxCommits` identifiers, and on a synthetic linear chain longer
than the cap it returns exactly `maxCommits` identifiers. -/
theorem claim_C3 :
    (∀ (repo : Repo) (s : String) (m : Nat),
      (collectAncestorHashes repo s m).length ≤ m) ∧
    (∀ (g : String → Option Nat) (f : Nat → String) (n m : Nat),
      (∀ i, i < n → g (f i) = some i) →
      (∀ i, i < n → normalizeHash (some (f i)) = some (f i)) →
      m < n →
      (collectAncestorHashes (chainRepo g f n) (f 0) m).length = m) := by
  constructor
  · intro repo s m
    exact collectLoop_length_le repo m [] _ (Nat.zero_le m)
  · intro g f n m hg hfix hmn
    rw [chainRepo_collect g f n m hg hfix hmn]
    simp

/-- Witness for C3: the concrete 8-node chain capped at 5 yields exactly 5
identifiers. -/
theorem claim_C3_witness :
    (collectAncestorHashes (chainRepo chainG chainF 8) (chainF 0) 5).length = 5 ∧
    (collectAncestorHashes emptyRepo "x" 7).length ≤ 7 :=
  ⟨claim_C3.2 chainG chainF 8 5 (by decide) (by decide) (by decide),
   claim_C3.1 emptyRepo "x" 7⟩

/-- C4: a failing `getCommit` does not propagate: the failing node is still
recorded as visited, contributes no parents, and the traversal continues;
in the gap graph the set still contains everything reachable around the
failing node. -/
theorem claim_C4 :
    (∀ (repo : Repo) (m : Nat) (v : List String) (hash : String)
        (rest : List String),
      v.length < m → ¬(hash = "" ∨ hash ∈ v) →
      repo.getCommit hash = .error () →
      collectLoop repo m v (hash :: rest) = collectLoop repo m (v ++ [hash]) rest ∧
      hash ∈ collectLoop repo m v (hash :: rest)) ∧
    collectAncestorHashes gapRepo "s" MAX_LOG_ENTRIES = ["s", "a", "b", "p"] := by
  constructor
  · intro repo m v hash rest hlt hns herr
    have hstep := collectLoop_error_step repo m v hash rest hlt hns herr
    refine ⟨hstep, ?_⟩
    rw [hstep]
    exact collectLoop_mem_mono repo m _ _
      (List.mem_append.mpr (.inr (List.mem_singleton.mpr rfl)))
  · simp [collectAncestorHashes, collectLoop, gapRepo, mkCommit, enqueueStep,
      normalizeHash, normalizeParentHash, wsTrim, trimChars, MAX_LOG_ENTRIES]

/-- Witness for C4: the failing fetch of `a` mid-traversal records `a` and
continues with the rest of the queue. -/
theorem claim_C4_witness :
    (collectLoop gapRepo 200 ["s"] ["a", "b"]
      = collectLoop gapRepo 200 ["s", "a"] ["b"]) ∧
    "a" ∈ collectLoop gapRepo 200 ["s"] ["a", "b"] :=
  claim_C4.1 gapRepo 200 ["s"] "a" ["b"] (by decide) (by decide) rfl

/-- C1: when the head log is non-empty and some head commit's normalized
hash lies in the collected ancestor set of the target, the resolver returns
exactly the (normalized) head commits whose normalized hash is not in that
set; and on the repository's own scenario it returns precisely the 4
feature-only commits. -/
theorem claim_C1 :
    (∀ (repo : Repo) (sd : Int) (tg hsh : String),
      repo.log MAX_LOG_ENTRIES ≠ [] →
      (∃ c ∈ repo.log MAX_LOG_ENTRIES, ∃ nh, normalizeHash c.hash = some nh ∧
        nh ∈ collectAncestorHashes repo hsh MAX_LOG_ENTRIES) →
      getCommitsForSelection repo (.tag sd tg hsh)
          = ((repo.log MAX_LOG_ENTRIES).filter (fun c =>
              match normalizeHash c.hash with
              | some nh => decide (nh ∉ collectAncestorHashes repo hsh MAX_LOG_ENTRIES)
              | none => false)).map normalizeCommit ∧
      getCommitsForSelection repo (.commit sd hsh)
          = ((repo.log MAX_LOG_ENTRIES).filter (fun c =>
              match normalizeHash c.hash with
              | some nh => decide (nh ∉ collectAncestorHashes repo hsh MAX_LOG_ENTRIES)
              | none => false)).map normalizeCommit) ∧
    getCommitsForSelection scenarioRepo (.tag 0 "target-tag" "m1")
      = [mkCommit (some "f4") [.str "f3"], mkCommit (some "f3") [.str "f2"],
         mkCommit (some "f2") [.str "f1"], mkCommit (some "f1") [.str "c0"]] := by
  constructor
  · intro repo sd tg hsh hne hsome
    exact ⟨targetSelectionCommits_common repo hsh hne hsome,
           targetSelectionCommits_common repo hsh hne hsome⟩
  · have hT : collectAncestorHashes scenarioRepo "m1" MAX_LOG_ENTRIES
        = ["m1", "c0"] := by
      simp [collectAncestorHashes, collectLoop, scenarioRepo, mkCommit,
        enqueueStep, normalizeHash, normalizeParentHash, wsTrim, trimChars,
        MAX_LOG_ENTRIES]
    show targetSelectionCommits scenarioRepo "m1" = _
    simp only [targetSelectionCommits, hT]
    simp [scenarioRepo, mkCommit, normalizeHash, normalizeCommit, wsTrim,
      trimChars]

/-- Witness for C1: the divergence-filter equation instantiated on the
end-to-end scenario repository. -/
theorem claim_C1_witness :
    getCommitsForSelection scenarioRepo (.tag 0 "t" "m1")
      = ((scenarioRepo.log MAX_LOG_ENTRIES).filter (fun c =>
          match normalizeHash c.hash with
          | some nh =>
            decide (nh ∉ collectAncestorHashes scenarioRepo "m1" MAX_LOG_ENTRIES)
          | none => false)).map normalizeCommit := by
  refine (claim_C1.1 scenarioRepo 0 "t" "m1" ?_ ?_).1
  · intro h
    simp [scenarioRepo, mkCommit] at h
  · have hT : collectAncestorHashes scenarioRepo "m1" MAX_LOG_ENTRIES
        = ["m1", "c0"] := by
      simp [collectAncestorHashes, collectLoop, scenarioRepo, mkCommit,
        enqueueStep, normalizeHash, normalizeParentHash, wsTrim, trimChars,
        MAX_LOG_ENTRIES]
    refine ⟨mkCommit (some "c0") [], ?_, "c0", by decide, ?_⟩
    · simp [scenarioRepo, mkCommit]
    · rw [hT]
      decide

/-! ### Lemmas for C10 -/

theorem normalizeCommit_hash {c : Commit} {nh : String}
    (h : normalizeHash c.hash = some nh) : (normalizeCommit c).hash = some nh := by
  simp only [normalizeCommit, h]
  by_cases hc : c.hash ≠ some nh
  · rw [if_pos hc]
  · rw [if_neg hc]
    push_neg at hc
    exact hc

theorem targetSelectionCommits_mem {repo : Repo} {hsh : String} {x : Commit}
    (hx : x ∈ targetSelectionCommits repo hsh) :
    ∃ c, c ∈ repo.log MAX_LOG_ENTRIES ∧ ∃ nh, normalizeHash c.hash = some nh ∧
      nh ∉ collectAncestorHashes repo hsh MAX_LOG_ENTRIES ∧
      x = normalizeCommit c := by
  simp only [targetSelectionCommits] at hx
  split at hx
  · simp at hx
  · split at hx
    · simp at hx
    · rcases List.mem_map.mp hx with ⟨c, hcf, rfl⟩
      rcases List.mem_filter.mp hcf with ⟨hcl, hpred⟩
      match hn : normalizeHash c.hash with
      | none =>
        simp only [hn] at hpred
        exact Bool.noConfusion hpred
      | some nh =>
        simp only [hn] at hpred
        have hnot : nh ∉ collectAncestorHashes repo hsh MAX_LOG_ENTRIES := by
          simpa [List.elem_iff] using hpred
        exact ⟨c, hcl, nh, hn, hnot, rfl⟩

theorem targetSelectionCommits_hash_isNormal (repo : Repo) (hsh : String) :
    ∀ x ∈ targetSelectionCommits repo hsh,
      ∃ nh, x.hash = some nh ∧ isNormal nh := by
  intro x hx
  rcases targetSelectionCommits_mem hx with ⟨c, _, nh, hn, _, rfl⟩
  exact ⟨nh, normalizeCommit_hash hn, normalizeHash_isNormal hn⟩

theorem collectLoop_congr (repo repo' : Repo)
    (hgc : repo'.getCommit = repo.getCommit) (m : Nat) (v q : List String) :
    collectLoop repo' m v q = collectLoop repo m v q := by
  induction v, q using collectLoop.induct repo' m with
  | case1 visited => rw [collectLoop, collectLoop]
  | case2 visited hash rest hlt hskip ih =>
    rw [collectLoop, collectLoop]
    simp only [dif_pos hlt, if_pos hskip]
    exact ih
  | case3 visited hash rest hlt hskip visited' a herr ih =>
    have h2 : repo.getCommit hash = .error a := by rw [← hgc]; exact herr
    rw [collectLoop, collectLoop]
    simp only [dif_pos hlt, if_neg hskip, herr, h2]
    exact ih
  | case4 visited hash rest hlt hskip visited' c hok ih =>
    have h2 : repo.getCommit hash = .ok c := by rw [← hgc]; exact hok
    rw [collectLoop, collectLoop]
    simp only [dif_pos hlt, if_neg hskip, hok, h2]
    exact ih
  | case5 visited hash rest hge =>
    rw [collectLoop, collectLoop]
    simp only [dif_neg hge]

theorem collectAncestorHashes_congr (repo repo' : Repo)
    (hgc : repo'.getCommit = repo.getCommit) (s : String) (m : Nat) :
    collectAncestorHashes repo' s m = collectAncestorHashes repo s m := by
  simp only [collectAncestorHashes]
  exact collectLoop_congr repo repo' hgc m [] _

theorem filterMap_filter_isSome {α β : Type} (f : α → Option β) (l : List α) :
    (l.filter (fun c => (f c).isSome)).filterMap f = l.filterMap f := by
  induction l with
  | nil => rfl
  | cons c l ih =>
    cases hn : f c with
    | none => simp [List.filter_cons, List.filterMap_cons, hn, ih]
    | some nh => simp [List.filter_cons, List.filterMap_cons, hn, ih]

theorem filter_filter_implied {α : Type} (p good : α → Bool)
    (himp : ∀ x, p x = true → good x = true) (l : List α) :
    (l.filter good).filter p = l.filter p := by
  induction l with
  | nil => rfl
  | cons c l ih =>
    by_cases hg : good c = true
    · simp only [List.filter_cons, hg, if_true]
      rw [ih]
    · have hg' : good c = false := by revert hg; cases good c <;> simp
      have hp : p c = false := by
        cases hpc : p c
        · rfl
        · exact absurd (himp c hpc) hg
      simp only [List.filter_cons, hg', hp, Bool.false_eq_true, if_false]
      exact ih

theorem targetSelectionCommits_filter_log (repo repo' : Repo)
    (hlog : ∀ n, repo'.log n
      = (repo.log n).filter (fun c => (normalizeHash c.hash).isSome))
    (hgc : repo'.getCommit = repo.getCommit) (hsh : String) :
    targetSelectionCommits repo' hsh = targetSelectionCommits repo hsh := by
  have hT := collectAncestorHashes_congr repo repo' hgc hsh MAX_LOG_ENTRIES
  simp only [targetSelectionCommits, hlog MAX_LOG_ENTRIES, hT]
  by_cases hempty : repo.log MAX_LOG_ENTRIES = []
  · simp [hempty]
  · rw [filterMap_filter_isSome]
    by_cases hgoodempty : (repo.log MAX_LOG_ENTRIES).filter
        (fun c => (normalizeHash c.hash).isSome) = []
    · rw [if_pos (by rw [hgoodempty]; rfl)]
      have hfm : (repo.log MAX_LOG_ENTRIES).filterMap
          (fun c => normalizeHash c.hash) = [] := by
        rw [← filterMap_filter_isSome (fun c => normalizeHash c.hash)
          (repo.log MAX_LOG_ENTRIES), hgoodempty]
        rfl
      rw [if_neg (fun h => hempty (List.length_eq_zero.mp h))]
      rw [hfm]
      rfl
    · rw [if_neg (fun h => hgoodempty (List.length_eq_zero.mp h))]
      rw [if_neg (fun h => hempty (List.length_eq_zero.mp h))]
      by_cases hany : ((repo.log MAX_LOG_ENTRIES).filterMap
          (fun c => normalizeHash c.hash)).any
            (fun h => (collectAncestorHashes repo hsh MAX_LOG_ENTRIES).contains h)
          = true
      · rw [hany]
        simp only [Bool.not_true, Bool.false_eq_true, if_false]
        rw [filter_filter_implied]
        intro x hx
        match hn : normalizeHash x.hash with
        | none => rw [hn] at hx; simp at hx
        | some nh => simp [hn]
      · have hany' : ((repo.log MAX_LOG_ENTRIES).filterMap
            (fun c => normalizeHash c.hash)).any
              (fun h => (collectAncestorHashes repo hsh MAX_LOG_ENTRIES).contains h)
            = false := by
          revert hany; cases ((repo.log MAX_LOG_ENTRIES).filterMap
            (fun c => normalizeHash c.hash)).any
              (fun h => (collectAncestorHashes repo hsh MAX_LOG_ENTRIES).contains h)
          · intro _; rfl
          · intro h; exact absurd rfl h
        rw [hany']
        simp

/-- C10: commits with an absent, empty or whitespace-only hash are excluded
from tag/commit results and ignored by the common-ancestor detection (the
result is unchanged if they are dropped from the log), every returned
commit carries a trimmed non-empty hash, and every identifier in the
collected ancestor set is trimmed and non-empty. -/
theorem claim_C10 :
    (∀ (repo : Repo) (sd : Int) (tg hsh : String) (c : Commit),
      normalizeHash c.hash = none →
      c ∉ getCommitsForSelection repo (.tag sd tg hsh) ∧
      c ∉ getCommitsForSelection repo (.commit sd hsh)) ∧
    (∀ (repo : Repo) (sd : Int) (tg hsh : String),
      (∀ x ∈ getCommitsForSelection repo (.tag sd tg hsh),
        ∃ nh, x.hash = some nh ∧ wsTrim nh = nh ∧ nh ≠ "") ∧
      (∀ x ∈ getCommitsForSelection repo (.commit sd hsh),
        ∃ nh, x.hash = some nh ∧ wsTrim nh = nh ∧ nh ≠ "")) ∧
    (∀ repo repo' : Repo,
      (∀ n, repo'.log n
        = (repo.log n).filter (fun c => (normalizeHash c.hash).isSome)) →
      repo'.getCommit = repo.getCommit →
      ∀ (sd : Int) (tg hsh : String),
        getCommitsForSelection repo' (.tag sd tg hsh)
          = getCommitsForSelection repo (.tag sd tg hsh) ∧
        getCommitsForSelection repo' (.commit sd hsh)
          = getCommitsForSelection repo (.commit sd hsh)) ∧
    (∀ (repo : Repo) (s : String) (m : Nat),
      ∀ x ∈ collectAncestorHashes repo s m, wsTrim x = x ∧ x ≠ "") := by
  have hmem : ∀ (repo : Repo) (hsh : String) (c : Commit),
      normalizeHash c.hash = none → c ∉ targetSelectionCommits repo hsh := by
    intro repo hsh c hnone hc
    rcases targetSelectionCommits_hash_isNormal repo hsh c hc with ⟨nh, hh, hnorm⟩
    rw [hh] at hnone
    rw [normalizeHash_fix hnorm] at hnone
    exact Option.some_ne_none nh hnone
  refine ⟨?_, ?_, ?_, ?_⟩
  · intro repo sd tg hsh c h
    exact ⟨hmem repo hsh c h, hmem repo hsh c h⟩
  · intro repo sd tg hsh
    exact ⟨targetSelectionCommits_hash_isNormal repo hsh,
           targetSelectionCommits_hash_isNormal repo hsh⟩
  · intro repo repo' hlog hgc sd tg hsh
    exact ⟨targetSelectionCommits_filter_log repo repo' hlog hgc hsh,
           targetSelectionCommits_filter_log repo repo' hlog hgc hsh⟩
  · intro repo s m x hx
    exact collectAncestorHashes_isNormal repo s m x hx

/-- Witness for C10: a hashless commit is not returned for `messyRepo`, and
dropping the unusable-hash commits from its log leaves the result
unchanged. -/
theorem claim_C10_witness :
    (mkCommit none []) ∉ getCommitsForSelection messyRepo (.tag 0 "t" "m1") ∧
    getCommitsForSelection messyFilteredRepo (.tag 0 "t" "m1")
      = getCommitsForSelection messyRepo (.tag 0 "t" "m1") :=
  ⟨(claim_C10.1 messyRepo 0 "t" "m1" (mkCommit none []) rfl).1,
   (claim_C10.2.2.1 messyRepo messyFilteredRepo (fun _ => rfl) rfl 0 "t" "m1").1⟩

end GitRange
